import Mathlib

/-!
# Verification of the giveaway winner picker

Shallow embedding of the core of `pick-winner.js` and the `utils.js` helpers
(`extractMentions`, `swapRemove`, `meetsTagRule`) of the Instagram giveaway
winner-picker repository, together with theorems about the embedded code.

Modelling conventions:
* JavaScript strings are Lean `String`s; `toLowerCase` is modelled per-character
  by `Char.toLower` (identical to JS on the ASCII handles/mentions involved).
* Possibly-absent record fields (`username`, `text`) are `Option String`;
  the JS falsy test `!text` is true for both the absent value and `""`.
* The paged Graph streams are finite lists of records; the shared generator
  cursor of the like checker is the not-yet-consumed suffix of the list.
* 32-bit integer arithmetic of the seeded RNG is `Nat` arithmetic reduced
  `% 2^32` exactly where JS coerces to 32 bits; `Math.floor(random()*n)` is
  exact rational arithmetic (`r * n / 1000000` in `Nat`), which is proved to
  agree with the mathematical floor.
-/

set_option maxHeartbeats 1000000

/-- The JS character class `[A-Za-z0-9._]` of `utils.js`'s mention regex. -/
def isMentionChar (c : Char) : Bool :=
  (decide (65 ≤ c.toNat) && decide (c.toNat ≤ 90)) ||
  (decide (97 ≤ c.toNat) && decide (c.toNat ≤ 122)) ||
  (decide (48 ≤ c.toNat) && decide (c.toNat ≤ 57)) ||
  c == '.' || c == '_'

/-- `text.toLowerCase()` on the ASCII strings involved. -/
def jsToLower (s : String) : String :=
  String.mk (s.data.map Char.toLower)

/-- The global-match loop of `text.match(/@([A-Za-z0-9._]+)/g)` followed by
`m.map(s => s.slice(1).toLowerCase())`: at each `'@'`, the longest nonempty run
of mention characters after it is one match, and scanning resumes after it.
Indexed by fuel so that the recursion is structural; every step consumes at
least one character and exactly one unit of fuel, so `l.length` fuel always
suffices (see `mentionScan`). -/
def mentionScanFuel : Nat → List Char → List String
  | 0, _ => []
  | _ + 1, [] => []
  | fuel + 1, c :: rest =>
    if c = '@' then
      let tok := rest.takeWhile isMentionChar
      if tok.isEmpty then mentionScanFuel fuel rest
      else String.mk (tok.map Char.toLower) :: mentionScanFuel fuel (rest.drop tok.length)
    else mentionScanFuel fuel rest

/-- All regex matches of `/@([A-Za-z0-9._]+)/g` over a character list. -/
def mentionScan (l : List Char) : List String :=
  mentionScanFuel l.length l

/-- `extractMentions` from `utils.js`: `[]` on an absent or empty text
(JS `if (!text) return []`), otherwise all regex matches, lowercased. -/
def extractMentions (text : Option String) : List String :=
  match text with
  | none => []
  | some s => if s = "" then [] else mentionScan s.data

/-- A comment record `{username, text}` yielded by the paged comments stream. -/
structure Comment where
  username : Option String
  text : Option String
deriving DecidableEq, Repr

/-- One iteration of the `for await` loop of `getEligibleCommenters`:
skip records whose lowercased username is falsy or already seen, and admit a
commenter exactly when that record's `extractMentions(c.text).length >= 3`. -/
def eligStep (acc : List String × List String) (c : Comment) : List String × List String :=
  let uname := jsToLower (c.username.getD "")
  if uname == "" || acc.1.contains uname then acc
  else if 3 ≤ (extractMentions c.text).length then
    (uname :: acc.1, acc.2 ++ [uname])
  else acc

/-- `getEligibleCommenters` from `pick-winner.js`, applied to the whole comment
stream: returns the `eligible` array (the candidate pool). -/
def getEligibleCommenters (comments : List Comment) : List String :=
  (comments.foldl eligStep ([], [])).2

/-- The lowercased username of a like record, `(liker.username || '').toLowerCase()`. -/
def likerName (o : Option String) : String :=
  jsToLower (o.getD "")

/-- The set of distinct non-empty lowercased liker usernames of a likes stream. -/
def likerSet : List (Option String) → Finset String
  | [] => ∅
  | l :: rest =>
    if likerName l = "" then likerSet rest
    else insert (likerName l) (likerSet rest)

/-- State closed over by `makeLikeChecker`: the `cache` set, the shared
generator position (modelled by the unconsumed suffix `rest` of the likes
stream) and the `exhausted` flag. -/
structure LikeState where
  cache : Finset String
  rest : List (Option String)
  exhausted : Bool

/-- Initial state of `makeLikeChecker(mediaId, accessToken)`. -/
def initLikeState (likes : List (Option String)) : LikeState :=
  ⟨∅, likes, false⟩

/-- The `for await (const liker of pager)` loop body of `hasLiked`: add each
non-empty lowercased liker name to the cache; stop when it equals `uname`.
Returns (found, cache, remaining stream). -/
def scanLikes (uname : String) : List (Option String) → Finset String →
    Bool × Finset String × List (Option String)
  | [], cache => (false, cache, [])
  | l :: rest, cache =>
    let lu := likerName l
    let cache2 := if lu = "" then cache else insert lu cache
    if lu = uname then (true, cache2, rest)
    else scanLikes uname rest cache2

/-- The closure returned by `makeLikeChecker`: cache hit returns true;
if `exhausted`, return false; otherwise consume the shared cursor until the
candidate is found or the stream ends (then set `exhausted` and return
`cache.has(uname)`). The early `return true` exits the `for await` loop
abruptly, which closes the shared generator (IteratorClose calls
`pager.return()`), so on the found branch nothing of the stream remains
readable: the cursor is emptied, while the `exhausted` flag is not set. -/
def hasLiked (st : LikeState) (username : String) : Bool × LikeState :=
  let uname := jsToLower username
  if uname ∈ st.cache then (true, st)
  else if st.exhausted then (false, st)
  else
    match scanLikes uname st.rest st.cache with
    | (true, cache2, _rest2) => (true, ⟨cache2, [], st.exhausted⟩)
    | (false, cache2, rest2) => (decide (uname ∈ cache2), ⟨cache2, rest2, true⟩)

/-- Run a sequence of `hasLiked` queries from a given state, keeping the final
state (the shared cursor and cache persist across calls). -/
def runQueriesFrom (st : LikeState) : List String → LikeState
  | [] => st
  | u :: qs => runQueriesFrom (hasLiked st u).2 qs

/-- The like-checker state after a sequence of queries on a fresh checker. -/
def runQueries (likes : List (Option String)) (qs : List String) : LikeState :=
  runQueriesFrom (initLikeState likes) qs

/-- Number of items the shared likes cursor consumes during one `hasLiked` call. -/
def queryReads (st : LikeState) (u : String) : Nat :=
  st.rest.length - ((hasLiked st u).2).rest.length

/-- Total number of likes-stream items consumed across a sequence of queries. -/
def totalReadsFrom (st : LikeState) : List String → Nat
  | [] => 0
  | u :: qs => queryReads st u + totalReadsFrom (hasLiked st u).2 qs

/-- The tri-state follow verdict: `true` / `false` / `'unknown'`. -/
inductive FollowState where
  | confirmed
  | denied
  | unknown
deriving DecidableEq, Repr

/-- The two follow-checking strategies of `makeFollowChecker`: `file-follow`
carries the lowercased follower set parsed from the CSV; `manual-follow` is
stateless. -/
inductive FollowMode where
  | manual
  | file (followers : Finset String)

/-- The checker returned by `makeFollowChecker`: CSV-set membership in
`file-follow` mode, the constant `'unknown'` in `manual-follow` mode. -/
def followCheck : FollowMode → String → FollowState
  | .manual, _ => .unknown
  | .file s, username => if jsToLower username ∈ s then .confirmed else .denied

/-- `swapRemove(arr, i, nRef)` from `utils.js`: overwrite index `i` with the
element at `nRef - 1` and return the decremented logical length. -/
def swapRemove (arr : List String) (i : Nat) (nRef : Nat) : List String × Nat :=
  (arr.set i (arr.getD (nRef - 1) ""), nRef - 1)

/-- One step of the FNV-style seed hash of `makeRNG`:
`h ^= seedStr.charCodeAt(i); h = Math.imul(h, 16777619)` on 32-bit patterns. -/
def fnvStep (h c : Nat) : Nat :=
  ((h ^^^ c) * 16777619) % 4294967296

/-- The seed hash of `makeRNG(seedStr)`, over the UTF-16 code units of the seed. -/
def fnvHash (seed : List Nat) : Nat :=
  seed.foldl fnvStep 2166136261

/-- One xorshift update of the seeded RNG state:
`h ^= h << 13; h ^= h >>> 17; h ^= h << 5` on 32-bit patterns. -/
def xorshiftStep (h : Nat) : Nat :=
  let h1 := (h ^^^ (h <<< 13)) % 4294967296
  let h2 := h1 ^^^ (h1 >>> 17)
  (h2 ^^^ (h2 <<< 5)) % 4294967296

/-- One call of the seeded `random()`: the advanced state is `xorshiftStep h`,
and the numerator of the returned value `((h >>> 0) % 1_000_000) / 1_000_000`
is its residue mod `1_000_000`. Returns (numerator, new state). -/
def rngNext (h : Nat) : Nat × Nat :=
  (xorshiftStep h % 1000000, xorshiftStep h)

/-- The rational value returned by the seeded `random()`. -/
def rngValue (h : Nat) : ℚ :=
  ((rngNext h).1 : ℚ) / 1000000

/-- One entry pushed onto `audit` by the main loop:
`{ candidate, liked, follows }` where `follows = (followState === true)`. -/
structure AuditEntry where
  candidate : String
  liked : Bool
  follows : Bool
deriving DecidableEq, Repr

/-- The terminal outcome printed by `main`, with the data the JSON carries. -/
inductive RunResult where
  | noEligible
  | winner (candidate : String) (audit : List AuditEntry)
  | winnerPending (candidate : String) (audit : List AuditEntry)
  | noQualified (audit : List AuditEntry)
deriving DecidableEq, Repr

/-- The audit trail carried by a terminal outcome. -/
def RunResult.auditOf : RunResult → List AuditEntry
  | .noEligible => []
  | .winner _ a => a
  | .winnerPending _ a => a
  | .noQualified _a => _a

/-- The `while (n > 0)` draw loop of `main`: draw `i = Math.floor(random()*n)`
(exact rational floor, see `drawIndex_lt` / the C10 theorem), look up the
candidate, run the like and follow checks, push the audit entry, accept iff
`liked && (follows || followState === 'unknown')`, otherwise swap-remove and
continue with the decremented logical length. -/
def drawLoop (mode : FollowMode) :
    Nat → Nat → List String → LikeState → List AuditEntry → RunResult
  | 0, _, _, _, audit => .noQualified audit
  | m + 1, h, pool, st, audit =>
    let r := (rngNext h).1
    let h2 := (rngNext h).2
    let i := r * (m + 1) / 1000000
    let candidate := pool.getD i ""
    let liked := (hasLiked st candidate).1
    let st2 := (hasLiked st candidate).2
    let fs := followCheck mode candidate
    let follows := decide (fs = FollowState.confirmed)
    let audit2 := audit ++ [⟨candidate, liked, follows⟩]
    if liked && (follows || decide (fs = FollowState.unknown)) then
      if fs = FollowState.unknown then .winnerPending candidate audit2
      else .winner candidate audit2
    else
      drawLoop mode m h2 (swapRemove pool i (m + 1)).1 st2 audit2

/-- `main` of `pick-winner.js` on a seeded run: build the pool with
`getEligibleCommenters`, return the no-eligible result on an empty pool,
otherwise run the draw loop with the seeded RNG, a fresh like checker and the
selected follow checker. -/
def runGiveaway (seed : List Nat) (comments : List Comment)
    (likes : List (Option String)) (mode : FollowMode) : RunResult :=
  let eligible := getEligibleCommenters comments
  if eligible.isEmpty then .noEligible
  else drawLoop mode eligible.length (fnvHash seed) eligible (initLikeState likes) []

/-- The association-list view of the JS `Map(username -> array of comment
texts)`; `byUserMap.get(k) || []`. -/
def mapGet (m : List (String × List String)) (k : String) : List String :=
  match m.find? (fun p => p.1 == k) with
  | some p => p.2
  | none => []

/-- The inner loop of `meetsTagRule` over one text's mentions: insert each
mention into the unique set and succeed as soon as `unique.size >= 3`. -/
def tagScanText (unique : Finset String) : List String → Finset String × Bool
  | [] => (unique, false)
  | m :: ms =>
    let u2 := insert m unique
    if 3 ≤ u2.card then (u2, true) else tagScanText u2 ms

/-- The outer loop of `meetsTagRule` over the candidate's texts; the `Nat`
instruments how many texts the loop examined (the source loop simply stops). -/
def tagScanTexts (unique : Finset String) : List String → Bool × Nat
  | [] => (false, 0)
  | t :: ts =>
    match tagScanText unique (extractMentions (some t)) with
    | (_, true) => (true, 1)
    | (u2, false) =>
      let res := tagScanTexts u2 ts
      (res.1, res.2 + 1)

/-- `meetsTagRule(username, byUserMap)` from `utils.js`. -/
def meetsTagRule (username : String) (byUserMap : List (String × List String)) : Bool :=
  (tagScanTexts ∅ (mapGet byUserMap (jsToLower username))).1

/-- The union of the mentions extracted from a list of texts. -/
def uniqueMentions : List String → Finset String
  | [] => ∅
  | t :: ts => (extractMentions (some t)).toFinset ∪ uniqueMentions ts

/-! ## Generic list helper lemmas -/

lemma getD_eq_getElem_of_lt {α : Type _} [Inhabited α] (l : List α) (i : Nat) (d : α)
    (h : i < l.length) : l.getD i d = l[i] := by
  simp [List.getD_eq_getElem?_getD, List.getElem?_eq_getElem h]

lemma getD_mem_take {α : Type _} [Inhabited α] (l : List α) (i n : Nat) (d : α)
    (h1 : i < n) (h2 : n ≤ l.length) : l.getD i d ∈ l.take n := by
  have hi : i < l.length := lt_of_lt_of_le h1 h2
  rw [getD_eq_getElem_of_lt l i d hi]
  rw [List.mem_iff_getElem]
  refine ⟨i, by simp [List.length_take]; omega, by simp⟩

lemma nodup_set_of_not_mem {α : Type _} (l : List α) (i : Nat) (a : α)
    (hl : l.Nodup) (ha : a ∉ l) : (l.set i a).Nodup := by
  induction l generalizing i with
  | nil => simp
  | cons b t ih =>
    simp only [List.nodup_cons] at hl
    cases i with
    | zero =>
      simp only [List.set_cons_zero, List.nodup_cons]
      exact ⟨fun hat => ha (List.mem_cons_of_mem _ hat), hl.2⟩
    | succ j =>
      simp only [List.set_cons_succ, List.nodup_cons]
      constructor
      · intro hb
        rcases List.mem_or_eq_of_mem_set hb with h | h
        · exact hl.1 h
        · exact ha (h ▸ List.mem_cons_self _ _)
      · exact ih j hl.2 (fun h => ha (List.mem_cons_of_mem _ h))

lemma getElem?_eq_some_getD {α : Type _} [Inhabited α] (l : List α) (i : Nat) (d : α)
    (h : i < l.length) : l[i]? = some (l.getD i d) := by
  rw [List.getElem?_eq_getElem h, getD_eq_getElem_of_lt l i d h]

/-- Distinct positions of a duplicate-free logical prefix hold distinct values. -/
lemma take_nodup_ne {α : Type _} (l : List α) (n a b : Nat) (hnd : (l.take n).Nodup)
    (ha : a < n) (hb : b < n) (hab : a ≠ b) (hal : a < l.length) (hbl : b < l.length) :
    l[a]? ≠ l[b]? := by
  rcases Nat.lt_or_ge a b with hlt | hge
  · have := List.nodup_iff_getElem?_ne_getElem?.mp hnd a b hlt
      (by simp only [List.length_take]; omega)
    rwa [List.getElem?_take_of_lt ha, List.getElem?_take_of_lt hb] at this
  · have hba : b < a := by omega
    have := List.nodup_iff_getElem?_ne_getElem?.mp hnd b a hba
      (by simp only [List.length_take]; omega)
    rw [List.getElem?_take_of_lt ha, List.getElem?_take_of_lt hb] at this
    exact fun he => this he.symm

lemma getD_last_not_mem_take {α : Type _} [Inhabited α] (l : List α) (n : Nat) (d : α)
    (hn : n ≤ l.length) (h0 : 0 < n) (hnd : (l.take n).Nodup) :
    l.getD (n - 1) d ∉ l.take (n - 1) := by
  intro hmem
  have hlt : n - 1 < l.length := by omega
  rw [List.mem_iff_getElem?] at hmem
  obtain ⟨j, hje⟩ := hmem
  have hjlen : j < n - 1 := by
    by_contra hge
    rw [List.getElem?_take_eq_none (by omega)] at hje
    simp at hje
  rw [List.getElem?_take_of_lt hjlen] at hje
  have hj2 : l[n - 1]? = some (l.getD (n - 1) d) := getElem?_eq_some_getD l (n - 1) d hlt
  exact take_nodup_ne l n j (n - 1) hnd (by omega) (by omega) (by omega) (by omega) hlt
    (hje.trans hj2.symm)

/-- After a swap-remove at index `i < n` of the logical prefix of length `n`,
every element of the new logical prefix was in the old one. -/
lemma mem_take_of_mem_swap {α : Type _} [Inhabited α] (l : List α) (i n : Nat) (x : α)
    (h1 : i < n) (h2 : n ≤ l.length)
    (hx : x ∈ (l.take (n - 1)).set i (l.getD (n - 1) default)) :
    x ∈ l.take n := by
  rcases List.mem_or_eq_of_mem_set hx with h | h
  · exact List.take_subset_take_left l (by omega) h
  · exact h ▸ getD_mem_take l (n - 1) n default (by omega) h2

/-- After a swap-remove at index `i < n` of a duplicate-free logical prefix of
length `n`, the removed element is gone from the new logical prefix. -/
lemma drawn_not_mem_swap {α : Type _} [Inhabited α] (l : List α) (i n : Nat)
    (h1 : i < n) (h2 : n ≤ l.length) (hnd : (l.take n).Nodup) :
    l.getD i default ∉ (l.take (n - 1)).set i (l.getD (n - 1) default) := by
  intro hmem
  have hil : i < l.length := by omega
  rw [List.mem_iff_getElem?] at hmem
  obtain ⟨j, hje⟩ := hmem
  have hjlen : j < n - 1 := by
    by_contra hge
    rw [List.getElem?_eq_none
      (by simp only [List.length_set, List.length_take]; omega)] at hje
    simp at hje
  by_cases hij : i = j
  · -- the value written by the swap equals the drawn value: positions `n-1`
    -- and `i` of the nodup prefix would then coincide
    subst hij
    rw [List.getElem?_set_self (by simp only [List.length_take]; omega)] at hje
    have hje2 : l[n - 1]? = l[i]? := by
      rw [getElem?_eq_some_getD l (n - 1) default (by omega),
        getElem?_eq_some_getD l i default hil]
      exact congrArg some (Option.some.inj hje)
    exact take_nodup_ne l n (n - 1) i hnd (by omega) h1 (by omega) (by omega) hil hje2
  · rw [List.getElem?_set_ne hij] at hje
    rw [List.getElem?_take_of_lt hjlen] at hje
    have hje2 : l[j]? = l[i]? := by
      rw [getElem?_eq_some_getD l i default hil]
      exact hje
    exact take_nodup_ne l n j i hnd (by omega) h1 (Ne.symm hij) (by omega) hil hje2

/-! ## Bounds for the seeded RNG and the sampled index -/

lemma rngNext_fst_lt (h : Nat) : (rngNext h).1 < 1000000 :=
  Nat.mod_lt _ (by norm_num)

/-- `Math.floor(random() * n)` (computed as `r * n / 1000000`) is below `n`. -/
lemma drawIndex_lt (h n : Nat) (hn : 0 < n) : (rngNext h).1 * n / 1000000 < n := by
  have hr := rngNext_fst_lt h
  rw [Nat.div_lt_iff_lt_mul (by norm_num)]
  calc (rngNext h).1 * n < 1000000 * n := by
        exact Nat.mul_lt_mul_of_lt_of_le hr (le_refl n) hn
    _ = n * 1000000 := Nat.mul_comm _ _

/-! ## The like checker: cache/cursor lemmas -/


lemma likerSet_append (a b : List (Option String)) :
    likerSet (a ++ b) = likerSet a ∪ likerSet b := by
  induction a with
  | nil => simp [likerSet]
  | cons l rest ih =>
    simp only [List.cons_append, likerSet]
    by_cases h : likerName l = ""
    · simp [h, ih]
    · simp [h, ih, Finset.insert_union]

lemma mem_likerSet (x : String) (likes : List (Option String)) :
    x ∈ likerSet likes ↔ x ≠ "" ∧ ∃ l ∈ likes, likerName l = x := by
  induction likes with
  | nil => simp [likerSet]
  | cons l rest ih =>
    simp only [likerSet]
    by_cases h : likerName l = ""
    · rw [if_pos h, ih]
      constructor
      · rintro ⟨hx, l', hl', he⟩
        exact ⟨hx, l', List.mem_cons_of_mem _ hl', he⟩
      · rintro ⟨hx, l', hl', he⟩
        rcases List.mem_cons.mp hl' with rfl | hl'
        · exact absurd (he.symm.trans h) hx
        · exact ⟨hx, l', hl', he⟩
    · rw [if_neg h, Finset.mem_insert, ih]
      constructor
      · rintro (rfl | ⟨hx, l', hl', he⟩)
        · exact ⟨h, l, List.mem_cons_self _ _, rfl⟩
        · exact ⟨hx, l', List.mem_cons_of_mem _ hl', he⟩
      · rintro ⟨hx, l', hl', he⟩
        rcases List.mem_cons.mp hl' with rfl | hl'
        · exact Or.inl he.symm
        · exact Or.inr ⟨hx, l', hl', he⟩

/-- Adding one liker to the cache commutes with a later union. -/
lemma cacheAdd_union (cache S : Finset String) (l : Option String) :
    (if likerName l = "" then cache else insert (likerName l) cache) ∪ S
    = cache ∪ (if likerName l = "" then S else insert (likerName l) S) := by
  by_cases he : likerName l = "" <;>
    simp [he, Finset.insert_union, Finset.union_insert]

/-- The scan loop consumes some portion of the stream, adds exactly its
non-empty lowercased names to the cache, and leaves the rest. -/
lemma scanLikes_decomp (uname : String) :
    ∀ (rest : List (Option String)) (cache : Finset String),
      ∃ consumed, rest = consumed ++ (scanLikes uname rest cache).2.2 ∧
        (scanLikes uname rest cache).2.1 = cache ∪ likerSet consumed := by
  intro rest
  induction rest with
  | nil =>
    intro cache
    exact ⟨[], by simp [scanLikes, likerSet]⟩
  | cons l rest ih =>
    intro cache
    simp only [scanLikes]
    by_cases h : likerName l = uname
    · rw [if_pos h]
      refine ⟨[l], by simp, ?_⟩
      rw [show likerSet [l] =
          (if likerName l = "" then (∅ : Finset String) else {likerName l}) from by
            by_cases he : likerName l = "" <;> simp [likerSet, he]]
      by_cases he : likerName l = "" <;>
        simp [he, Finset.insert_eq, Finset.union_comm]
    · rw [if_neg h]
      obtain ⟨consumed, hc1, hc2⟩ :=
        ih (if likerName l = "" then cache else insert (likerName l) cache)
      refine ⟨l :: consumed, by simpa using congrArg (l :: ·) hc1, ?_⟩
      rw [hc2, cacheAdd_union]
      simp only [likerSet]

lemma scanLikes_not_found (uname : String) :
    ∀ (rest : List (Option String)) (cache : Finset String),
      (scanLikes uname rest cache).1 = false →
      (scanLikes uname rest cache).2.2 = [] ∧
      (scanLikes uname rest cache).2.1 = cache ∪ likerSet rest := by
  intro rest
  induction rest with
  | nil => intro cache _; simp [scanLikes, likerSet]
  | cons l rest ih =>
    intro cache hf
    simp only [scanLikes] at hf ⊢
    by_cases h : likerName l = uname
    · rw [if_pos h] at hf
      simp at hf
    · rw [if_neg h] at hf ⊢
      obtain ⟨h1, h2⟩ := ih _ hf
      refine ⟨h1, ?_⟩
      rw [h2, cacheAdd_union]
      simp only [likerSet]

lemma scanLikes_found_iff (uname : String) (hu : uname ≠ "") :
    ∀ (rest : List (Option String)) (cache : Finset String),
      ((scanLikes uname rest cache).1 = true ↔ uname ∈ likerSet rest) := by
  intro rest
  induction rest with
  | nil => intro cache; simp [scanLikes, likerSet]
  | cons l rest ih =>
    intro cache
    simp only [scanLikes]
    by_cases h : likerName l = uname
    · rw [if_pos h]
      simp only [likerSet, h]
      rw [if_neg hu]
      simp
    · rw [if_neg h]
      rw [ih]
      simp only [likerSet]
      by_cases he : likerName l = ""
      · simp [he]
      · simp only [he, if_neg, Finset.mem_insert, not_false_iff]
        constructor
        · exact Or.inr
        · rintro (he2 | hm)
          · exact absurd he2.symm h
          · exact hm


lemma jsToLower_ne_empty {s : String} (h : s ≠ "") : jsToLower s ≠ "" := by
  obtain ⟨data⟩ := s
  cases data with
  | nil => exact absurd rfl h
  | cons c cs =>
    intro he
    have hd : (jsToLower (String.mk (c :: cs))).data = ("" : String).data :=
      congrArg String.data he
    have hd2 : ("" : String).data = [] := rfl
    rw [hd2] at hd
    simp [jsToLower] at hd

/-! Branch characterizations of one `hasLiked` call. -/

lemma hasLiked_of_hit (st : LikeState) (u : String) (hc : jsToLower u ∈ st.cache) :
    hasLiked st u = (true, st) := by
  simp only [hasLiked]
  rw [if_pos hc]

lemma hasLiked_of_exhausted (st : LikeState) (u : String)
    (hc : jsToLower u ∉ st.cache) (he : st.exhausted = true) :
    hasLiked st u = (false, st) := by
  simp only [hasLiked]
  rw [if_neg hc, if_pos he]

lemma hasLiked_of_scan (st : LikeState) (u : String)
    (hc : jsToLower u ∉ st.cache) (he : ¬st.exhausted = true) :
    hasLiked st u =
      ((scanLikes (jsToLower u) st.rest st.cache).1
          || decide (jsToLower u ∈ (scanLikes (jsToLower u) st.rest st.cache).2.1),
        ⟨(scanLikes (jsToLower u) st.rest st.cache).2.1,
         if (scanLikes (jsToLower u) st.rest st.cache).1 then []
           else (scanLikes (jsToLower u) st.rest st.cache).2.2,
         if (scanLikes (jsToLower u) st.rest st.cache).1 then st.exhausted else true⟩) := by
  simp only [hasLiked]
  rw [if_neg hc, if_neg he]
  rcases scanLikes (jsToLower u) st.rest st.cache with ⟨found, cache2, rest2⟩
  cases found with
  | true => simp
  | false => simp

lemma scanLikes_rest_suffix (uname : String) (rest : List (Option String))
    (cache : Finset String) : (scanLikes uname rest cache).2.2.IsSuffix rest := by
  obtain ⟨consumed, hc, -⟩ := scanLikes_decomp uname rest cache
  exact ⟨consumed, hc.symm⟩

lemma hasLiked_rest_suffix (st : LikeState) (u : String) :
    ((hasLiked st u).2).rest.IsSuffix st.rest := by
  by_cases hc : jsToLower u ∈ st.cache
  · rw [hasLiked_of_hit st u hc]
  · by_cases he : st.exhausted = true
    · rw [hasLiked_of_exhausted st u hc he]
    · rw [hasLiked_of_scan st u hc he]
      by_cases hf : (scanLikes (jsToLower u) st.rest st.cache).1 = true
      · simp only [hf, if_true]
        exact List.nil_suffix
      · simp only [hf, if_false]
        exact scanLikes_rest_suffix (jsToLower u) st.rest st.cache

lemma hasLiked_rest_length_le (st : LikeState) (u : String) :
    ((hasLiked st u).2).rest.length ≤ st.rest.length :=
  (hasLiked_rest_suffix st u).length_le

lemma runQueriesFrom_rest_length_le (qs : List String) :
    ∀ st : LikeState, (runQueriesFrom st qs).rest.length ≤ st.rest.length := by
  induction qs with
  | nil => intro st; exact le_refl _
  | cons u qs ih =>
    intro st
    exact le_trans (ih (hasLiked st u).2) (hasLiked_rest_length_le st u)

lemma totalReadsFrom_eq (qs : List String) :
    ∀ st : LikeState,
      totalReadsFrom st qs = st.rest.length - (runQueriesFrom st qs).rest.length := by
  induction qs with
  | nil => intro st; simp [totalReadsFrom, runQueriesFrom]
  | cons u qs ih =>
    intro st
    simp only [totalReadsFrom, runQueriesFrom, queryReads]
    rw [ih]
    have h1 := hasLiked_rest_length_le st u
    have h2 := runQueriesFrom_rest_length_le qs (hasLiked st u).2
    omega

/-- C2 (divergence): the claim says `hasLiked(u)` answers membership in the
likes collection for every sequence of prior queries, and that once exhausted
the cache is the full set of distinct likers. In the code, the early
`return true` inside `for await` closes the shared generator, so after a query
that finds its candidate mid-stream a later cache-miss query reads nothing:
with likes `[alice, bob]`, querying alice and then bob answers false for bob
even though bob liked the post, and at exhaustion the cache `{alice}` is not
the full liker set. -/
theorem c2_found_closes_generator :
    ((hasLiked (runQueries [some "alice", some "bob"] ["alice"]) "bob").1 = false ∧
      jsToLower "bob" ∈ likerSet [some "alice", some "bob"]) ∧
    ((runQueries [some "alice", some "bob"] ["alice", "bob"]).exhausted = true ∧
      (runQueries [some "alice", some "bob"] ["alice", "bob"]).cache
        ≠ likerSet [some "alice", some "bob"]) := by
  refine ⟨⟨by decide, by decide⟩, ⟨by decide, by decide⟩⟩

/-- C3: the shared likes cursor only moves forward (each call leaves a suffix
of the stream), so across any sequence of `hasLiked` queries the total number
of items read equals the portion consumed exactly once and is bounded by one
full pass over the likes collection. -/
theorem c3_likes_single_pass (likes : List (Option String)) (qs : List String) :
    totalReadsFrom (initLikeState likes) qs
        = likes.length - (runQueries likes qs).rest.length ∧
    totalReadsFrom (initLikeState likes) qs ≤ likes.length ∧
    ∀ (st : LikeState) (u : String), ((hasLiked st u).2).rest.IsSuffix st.rest := by
  have h := totalReadsFrom_eq qs (initLikeState likes)
  refine ⟨h, ?_, fun st u => hasLiked_rest_suffix st u⟩
  rw [h]
  exact Nat.sub_le _ _

/-! ## The tag rule -/

lemma tagScanText_spec (ms : List String) :
    ∀ unique : Finset String, unique.card < 3 →
      (((tagScanText unique ms).2 = true ↔ 3 ≤ (unique ∪ ms.toFinset).card) ∧
        ((tagScanText unique ms).2 = false →
          (tagScanText unique ms).1 = unique ∪ ms.toFinset ∧
          (tagScanText unique ms).1.card < 3)) := by
  induction ms with
  | nil =>
    intro unique hcard
    constructor
    · simp only [tagScanText, List.toFinset_nil, Finset.union_empty]
      constructor
      · intro h; exact absurd h (by simp)
      · intro h; omega
    · intro _
      simp only [tagScanText, List.toFinset_nil, Finset.union_empty]
      exact ⟨trivial, hcard⟩
  | cons m ms ih =>
    intro unique hcard
    have hsets : insert m unique ∪ ms.toFinset = unique ∪ (m :: ms).toFinset := by
      simp [List.toFinset_cons, Finset.insert_union, Finset.union_insert]
    simp only [tagScanText]
    by_cases h3 : 3 ≤ (insert m unique).card
    · rw [if_pos h3]
      constructor
      · simp only [true_iff]
        calc 3 ≤ (insert m unique).card := h3
          _ ≤ (unique ∪ (m :: ms).toFinset).card := by
              apply Finset.card_le_card
              rw [← hsets]
              exact Finset.subset_union_left
      · intro habs
        exact absurd habs (by simp)
    · rw [if_neg h3]
      have hlt : (insert m unique).card < 3 := Nat.lt_of_not_le h3
      obtain ⟨hiff, hrest⟩ := ih (insert m unique) hlt
      refine ⟨?_, ?_⟩
      · rw [hiff, hsets]
      · intro hf
        obtain ⟨he, hc⟩ := hrest hf
        exact ⟨by rw [he, hsets], hc⟩

lemma tagScanTexts_spec (ts : List String) :
    ∀ unique : Finset String, unique.card < 3 →
      ((tagScanTexts unique ts).1 = true ↔ 3 ≤ (unique ∪ uniqueMentions ts).card) := by
  induction ts with
  | nil =>
    intro unique hcard
    simp only [tagScanTexts, uniqueMentions, Finset.union_empty]
    constructor
    · intro h; exact absurd h (by simp)
    · intro h; omega
  | cons t ts ih =>
    intro unique hcard
    simp only [tagScanTexts, uniqueMentions]
    obtain ⟨hiff, hrest⟩ := tagScanText_spec (extractMentions (some t)) unique hcard
    rcases hsc : tagScanText unique (extractMentions (some t)) with ⟨u2, found⟩
    rw [hsc] at hiff hrest
    cases found with
    | true =>
      simp only [true_iff]
      calc 3 ≤ (unique ∪ (extractMentions (some t)).toFinset).card := hiff.mp rfl
        _ ≤ ((unique ∪ (extractMentions (some t)).toFinset) ∪ uniqueMentions ts).card :=
            Finset.card_le_card Finset.subset_union_left
        _ = (unique ∪ ((extractMentions (some t)).toFinset ∪ uniqueMentions ts)).card := by
            rw [Finset.union_assoc]
    | false =>
      obtain ⟨hu2, hcard2⟩ := hrest rfl
      have hu2' : u2 = unique ∪ (extractMentions (some t)).toFinset := hu2
      have hcard2' : u2.card < 3 := hcard2
      simp only []
      rw [ih u2 hcard2', hu2', Finset.union_assoc]

lemma tagScanTexts_count_le (pre : List String) :
    ∀ (suf : List String) (unique : Finset String), unique.card < 3 →
      3 ≤ (unique ∪ uniqueMentions pre).card →
      (tagScanTexts unique (pre ++ suf)).2 ≤ pre.length := by
  induction pre with
  | nil =>
    intro suf unique hlt h3
    rw [show uniqueMentions [] = ∅ from rfl, Finset.union_empty] at h3
    omega
  | cons t pre ih =>
    intro suf unique hlt h3
    simp only [List.cons_append, tagScanTexts]
    obtain ⟨hiff, hrest⟩ := tagScanText_spec (extractMentions (some t)) unique hlt
    rcases hsc : tagScanText unique (extractMentions (some t)) with ⟨u2, found⟩
    rw [hsc] at hiff hrest
    cases found with
    | true => simp
    | false =>
      obtain ⟨hu2, hcard2⟩ := hrest rfl
      have hu2' : u2 = unique ∪ (extractMentions (some t)).toFinset := hu2
      have hcard2' : u2.card < 3 := hcard2
      simp only [List.length_cons]
      have h3' : 3 ≤ (u2 ∪ uniqueMentions pre).card := by
        rw [hu2', Finset.union_assoc]
        simpa only [uniqueMentions] using h3
      have := ih suf u2 hcard2' h3'
      have hcast : (tagScanTexts u2 (pre.append suf)).2 ≤ pre.length := this
      omega

/-- C4: `meetsTagRule` returns true iff the union of mentions across the
candidate's indexed texts has at least 3 distinct (lowercased) handles; it is
false when the candidate has no indexed texts; and once a leading portion of
the texts already reaches 3 unique mentions, the scan examines no more texts
than that portion, whatever follows. -/
theorem c4_meetsTagRule_iff (username : String) (byUserMap : List (String × List String)) :
    (meetsTagRule username byUserMap = true ↔
      3 ≤ (uniqueMentions (mapGet byUserMap (jsToLower username))).card) ∧
    (mapGet byUserMap (jsToLower username) = [] →
      meetsTagRule username byUserMap = false) ∧
    (∀ (pre suf : List String), 3 ≤ (uniqueMentions pre).card →
      (tagScanTexts ∅ (pre ++ suf)).2 ≤ pre.length) := by
  refine ⟨?_, ?_, ?_⟩
  · have := tagScanTexts_spec (mapGet byUserMap (jsToLower username)) ∅ (by simp)
    rw [Finset.empty_union] at this
    exact this
  · intro h
    simp only [meetsTagRule, h]
    rfl
  · intro pre suf h3
    exact tagScanTexts_count_le pre suf ∅ (by simp) (by rwa [Finset.empty_union])

/-- Witness for C4 at the spec's own example texts. -/
theorem c4_meetsTagRule_iff_witness :
    (meetsTagRule "Bob" [("bob", ["@a @b", "@b @c"])] = true ↔
      3 ≤ (uniqueMentions
        (mapGet [("bob", ["@a @b", "@b @c"])] (jsToLower "Bob"))).card) ∧
    (mapGet [("bob", ["@a @b", "@b @c"])] (jsToLower "Bob") = [] →
      meetsTagRule "Bob" [("bob", ["@a @b", "@b @c"])] = false) ∧
    (∀ (pre suf : List String), 3 ≤ (uniqueMentions pre).card →
      (tagScanTexts ∅ (pre ++ suf)).2 ≤ pre.length) :=
  c4_meetsTagRule_iff "Bob" [("bob", ["@a @b", "@b @c"])]

/-! ## The draw loop: sampling without replacement -/

lemma auditAppend_nodup (audit : List AuditEntry) (S : List String) (c : String)
    (b1 b2 : Bool) (hc : c ∈ S) (haudit : ∀ e ∈ audit, e.candidate ∉ S)
    (hnd : (audit.map AuditEntry.candidate).Nodup) :
    ((audit ++ [AuditEntry.mk c b1 b2]).map AuditEntry.candidate).Nodup := by
  rw [List.map_append, List.nodup_append]
  refine ⟨hnd, by simp, ?_⟩
  intro a ha hmem
  obtain ⟨e, he, rfl⟩ := List.mem_map.mp ha
  simp only [List.map_cons, List.map_nil, List.mem_singleton] at hmem
  exact haudit e he (by rw [hmem]; exact hc)

lemma drawLoop_audit_bound (mode : FollowMode) :
    ∀ (n h : Nat) (pool : List String) (st : LikeState) (audit : List AuditEntry),
      n ≤ pool.length → (pool.take n).Nodup →
      (∀ e ∈ audit, e.candidate ∉ pool.take n) →
      (audit.map AuditEntry.candidate).Nodup →
      ((drawLoop mode n h pool st audit).auditOf.length ≤ n + audit.length ∧
        ((drawLoop mode n h pool st audit).auditOf.map AuditEntry.candidate).Nodup) := by
  intro n
  induction n with
  | zero =>
    intro h pool st audit _ _ _ hauditnd
    simp only [drawLoop, RunResult.auditOf]
    exact ⟨by omega, hauditnd⟩
  | succ m ih =>
    intro h pool st audit hlen hnodup haudit hauditnd
    have hi : (rngNext h).1 * (m + 1) / 1000000 < m + 1 :=
      drawIndex_lt h (m + 1) (Nat.succ_pos m)
    have hcand : pool.getD ((rngNext h).1 * (m + 1) / 1000000) "" ∈ pool.take (m + 1) :=
      getD_mem_take pool _ (m + 1) "" hi hlen
    simp only [drawLoop]
    split
    · -- accepted: one final audit entry is appended and the loop stops
      split
      · simp only [RunResult.auditOf, List.length_append, List.length_cons, List.length_nil]
        exact ⟨by omega, auditAppend_nodup audit _ _ _ _ hcand haudit hauditnd⟩
      · simp only [RunResult.auditOf, List.length_append, List.length_cons, List.length_nil]
        exact ⟨by omega, auditAppend_nodup audit _ _ _ _ hcand haudit hauditnd⟩
    · -- rejected: swap-remove and recurse on the shrunken logical pool
      have htakem : (pool.take m).Nodup :=
        hnodup.sublist (List.take_sublist_take_left pool (Nat.le_succ m))
      have hlast : pool.getD m "" ∉ pool.take m := by
        have := getD_last_not_mem_take pool (m + 1) "" hlen (Nat.succ_pos m) hnodup
        simpa using this
      have hbound := ih (rngNext h).2
        ((swapRemove pool ((rngNext h).1 * (m + 1) / 1000000) (m + 1)).1)
        (hasLiked st (pool.getD ((rngNext h).1 * (m + 1) / 1000000) "")).2
        (audit ++ [AuditEntry.mk (pool.getD ((rngNext h).1 * (m + 1) / 1000000) "")
          (hasLiked st (pool.getD ((rngNext h).1 * (m + 1) / 1000000) "")).1
          (decide (followCheck mode (pool.getD ((rngNext h).1 * (m + 1) / 1000000) "")
            = FollowState.confirmed))])
        ?hlen2 ?hnodup2 ?haudit2 ?hauditnd2
      case hlen2 =>
        simp only [swapRemove, List.length_set]
        omega
      case hnodup2 =>
        simp only [swapRemove]
        rw [List.set_take]
        exact nodup_set_of_not_mem _ _ _ htakem hlast
      case haudit2 =>
        intro e he
        rcases List.mem_append.mp he with he1 | he2
        · intro habs
          apply haudit e he1
          simp only [swapRemove] at habs
          rw [List.set_take] at habs
          exact mem_take_of_mem_swap pool _ (m + 1) e.candidate hi hlen habs
        · simp only [List.mem_singleton] at he2
          subst he2
          intro habs
          simp only [swapRemove] at habs
          rw [List.set_take] at habs
          exact drawn_not_mem_swap pool _ (m + 1) hi hlen hnodup habs
      case hauditnd2 =>
        exact auditAppend_nodup audit _ _ _ _ hcand haudit hauditnd
      refine ⟨?_, hbound.2⟩
      calc (drawLoop mode m (rngNext h).2 _ _ _).auditOf.length
          ≤ m + (audit ++ [_]).length := hbound.1
        _ = (m + 1) + audit.length := by simp [List.length_append]; omega

/-- C9: on every duplicate-free pool, the draw loop visits each candidate at
most once (the recorded candidates are pairwise distinct — every rejection
swap-removes the drawn candidate and strictly shrinks the logical pool) and
terminates within `pool.length` draws, so the audit trail never exceeds the
initial pool size. -/
theorem c9_without_replacement (mode : FollowMode) (h : Nat) (pool : List String)
    (st : LikeState) (hnd : pool.Nodup) :
    (drawLoop mode pool.length h pool st []).auditOf.length ≤ pool.length ∧
    ((drawLoop mode pool.length h pool st []).auditOf.map AuditEntry.candidate).Nodup := by
  have := drawLoop_audit_bound mode pool.length h pool st []
    (le_refl _) (by simpa using hnd) (by simp) (by simp)
  simpa using this

/-- Witness for C9 on a concrete two-candidate pool. -/
theorem c9_without_replacement_witness :
    (["alice", "bob"] : List String).Nodup ∧
    ((drawLoop .manual (["alice", "bob"] : List String).length 0 ["alice", "bob"]
        (initLikeState []) []).auditOf.length ≤ (["alice", "bob"] : List String).length ∧
      ((drawLoop .manual (["alice", "bob"] : List String).length 0 ["alice", "bob"]
        (initLikeState []) []).auditOf.map AuditEntry.candidate).Nodup) :=
  ⟨by decide,
    c9_without_replacement .manual 0 ["alice", "bob"] (initLikeState []) (by decide)⟩

/-- C10: the seeded `random()` always returns a value in `[0, 1)`; the sampled
index `Math.floor(random() * n)` equals the embedded `Nat` computation
`r * n / 1000000` and lies in `[0, n)`, so the draw step's pool access is in
bounds whenever the pool holds the logical prefix of length `n ≥ 1`. -/
theorem c10_draw_index_in_bounds (h n : Nat) (hn : 1 ≤ n) :
    (0 ≤ rngValue h ∧ rngValue h < 1) ∧
    (⌊rngValue h * (n : ℚ)⌋₊ = (rngNext h).1 * n / 1000000) ∧
    ((rngNext h).1 * n / 1000000 < n) ∧
    (∀ pool : List String, n ≤ pool.length →
      (rngNext h).1 * n / 1000000 < pool.length) := by
  have hr := rngNext_fst_lt h
  refine ⟨⟨?_, ?_⟩, ?_, drawIndex_lt h n hn,
    fun pool hp => lt_of_lt_of_le (drawIndex_lt h n hn) hp⟩
  · exact div_nonneg (Nat.cast_nonneg _) (by norm_num)
  · rw [rngValue, div_lt_one (by norm_num)]
    exact_mod_cast hr
  · have key : ⌊((((rngNext h).1 * n : ℕ) : ℚ)) / (((1000000 : ℕ) : ℚ))⌋₊
        = (rngNext h).1 * n / 1000000 := by
      rw [Nat.floor_div_nat, Nat.floor_natCast]
    calc ⌊rngValue h * (n : ℚ)⌋₊
        = ⌊((((rngNext h).1 * n : ℕ) : ℚ)) / (((1000000 : ℕ) : ℚ))⌋₊ := by
          congr 1
          rw [rngValue]
          push_cast
          ring
      _ = (rngNext h).1 * n / 1000000 := key

/-- Witness for C10 at `h = 0`, `n = 1`. -/
theorem c10_draw_index_in_bounds_witness : (1 : Nat) ≤ 1 ∧
    ((0 ≤ rngValue 0 ∧ rngValue 0 < 1) ∧
      (⌊rngValue 0 * ((1 : Nat) : ℚ)⌋₊ = (rngNext 0).1 * 1 / 1000000) ∧
      ((rngNext 0).1 * 1 / 1000000 < 1) ∧
      (∀ pool : List String, 1 ≤ pool.length →
        (rngNext 0).1 * 1 / 1000000 < pool.length)) :=
  ⟨le_refl 1, c10_draw_index_in_bounds 0 1 (le_refl 1)⟩

/-- The proposition that one execution of the seeded run produced result `r`
on the given inputs (seed, comment stream, likes stream, follow strategy). -/
def IsRun (seed : List Nat) (comments : List Comment) (likes : List (Option String))
    (mode : FollowMode) (r : RunResult) : Prop :=
  r = runGiveaway seed comments likes mode

/-- C8: the seeded random source is a deterministic function of the seed, so
two independent runs on the same seed, pool and like/follow data produce the
same result — in particular the identical audit trail and the identical
sequence of drawn candidates. -/
theorem c8_seed_reproducible (seed : List Nat) (comments : List Comment)
    (likes : List (Option String)) (mode : FollowMode) (r1 r2 : RunResult)
    (h1 : IsRun seed comments likes mode r1) (h2 : IsRun seed comments likes mode r2) :
    r1 = r2 ∧ r1.auditOf = r2.auditOf ∧
      r1.auditOf.map AuditEntry.candidate = r2.auditOf.map AuditEntry.candidate := by
  have heq : r1 = r2 := h1.trans h2.symm
  exact ⟨heq, by rw [heq], by rw [heq]⟩

/-- Witness for C8 on a concrete seeded run. -/
theorem c8_seed_reproducible_witness :
    IsRun [103] [Comment.mk (some "bob") (some "@a @b @c")] [some "bob"] .manual
      (runGiveaway [103] [Comment.mk (some "bob") (some "@a @b @c")] [some "bob"] .manual) ∧
    (runGiveaway [103] [Comment.mk (some "bob") (some "@a @b @c")] [some "bob"] .manual
      = runGiveaway [103] [Comment.mk (some "bob") (some "@a @b @c")] [some "bob"] .manual) :=
  ⟨rfl, (c8_seed_reproducible [103] [Comment.mk (some "bob") (some "@a @b @c")]
    [some "bob"] .manual _ _ rfl rfl).1⟩

/-- C1 (divergence): the candidate pool is not the set of distinct commenters
with a non-empty username — `getEligibleCommenters` drops a commenter whose
comment carries no mentions, and admits the same commenter when only the text
changes, so pool membership depends on the comment texts. -/
theorem c1_pool_depends_on_texts :
    getEligibleCommenters [Comment.mk (some "Bob") (some "hello")] = [] ∧
    getEligibleCommenters [Comment.mk (some "Bob") (some "@a @b @c")] = ["bob"] := by
  constructor <;> rfl

/-- C5 (divergence): with the sole commenter bob tagging only 2 unique
accounts, the code never draws bob at all — the tag filter runs at pool-build
time, the pool comes out empty and the run ends as `no-eligible-commenters`
with no audit trail, not as `NoQualifiedWinner` with
`[{bob, tagRulePassed:false}]`. -/
theorem c5_tag_rule_not_in_loop :
    getEligibleCommenters [Comment.mk (some "bob") (some "@x @y")] = [] ∧
    runGiveaway [] [Comment.mk (some "bob") (some "@x @y")] [] .manual
      = RunResult.noEligible := by
  constructor <;> rfl

/-- C6 (divergence): a candidate whose only comment tags one account three
times fails the unique-mention tag rule, yet the run accepts them as (pending)
winner after like and follow checks alone — acceptance is not conditional on
passing the tag rule. -/
theorem c6_accepts_tag_rule_violator :
    meetsTagRule "bob" [("bob", ["@a @a @a"])] = false ∧
    runGiveaway [] [Comment.mk (some "bob") (some "@a @a @a")] [some "bob"] .manual
      = RunResult.winnerPending "bob" [AuditEntry.mk "bob" true false] := by
  constructor <;> rfl

/-- C7 (divergence): in manual-follow mode the follow verifier returns the
tri-state `'unknown'`, but the audit record stores
`follows = (followState === true)`, i.e. the boolean `false` — the tri-state
result itself is never recorded, and `'unknown'` is logged as a failure. -/
theorem c7_unknown_recorded_as_false :
    followCheck .manual "bob" = FollowState.unknown ∧
    runGiveaway [] [Comment.mk (some "bob") (some "@a @b @c")] [some "bob"] .manual
      = RunResult.winnerPending "bob" [AuditEntry.mk "bob" true false] := by
  constructor <;> rfl
